import Mathlib

/-!
Verification of the geometric and metric core of the `pose-utils` library
(`PoseUtils/helpers.py` and `PoseUtils/metrics.py`).

The pairwise line intersector is embedded over exact rationals (`ℚ`), so that
its comparisons against the epsilon constant are exact; the least-squares
multi-line intersector and the trajectory error metric, which involve square
roots and `arccos`, are embedded over `ℝ`.

Python exceptions (`raise Exception(...)`, `IndexError`) are modelled by
`Option`: `none` is a raised error, `some` a normal return.
-/

namespace PoseUtils

/-- A 3D point over `ℚ`, indexed like the numpy array `p[0], p[1], p[2]`. -/
abbrev Pt := Fin 3 → ℚ

/-- The threshold of `line_line_intersection`:
`eps = 2.2204e-16  # This number is quoted from MATLAB "eps".`
The scientific literal is exact over `ℚ`. -/
def eps : ℚ := 2.2204e-16

/-- Embedding of `PoseUtils.helpers.line_line_intersection`.  Each `let`
mirrors one line of the Python source; the two elementwise guards are
`np.all(p43 < eps)` and `np.all(p21 < eps)` (signed, componentwise — not a
magnitude test), and the third guard is `denom < eps`. -/
def line_line_intersection (p1 p2 p3 p4 : Pt) : Option Pt :=
  let p13 := p1 - p3
  let p43 := p4 - p3
  if ∀ i, p43 i < eps then none
  else
    let p21 := p2 - p1
    if ∀ i, p21 i < eps then none
    else
      let d1343 := p13 0 * p43 0 + p13 1 * p43 1 + p13 2 * p43 2
      let d4321 := p43 0 * p21 0 + p43 1 * p21 1 + p43 2 * p21 2
      let d1321 := p13 0 * p21 0 + p13 1 * p21 1 + p13 2 * p21 2
      let d4343 := p43 0 * p43 0 + p43 1 * p43 1 + p43 2 * p43 2
      let d2121 := p21 0 * p21 0 + p21 1 * p21 1 + p21 2 * p21 2
      let denom := d2121 * d4343 - d4321 * d4321
      if denom < eps then none
      else
        let numer := d1343 * d4321 - d1321 * d4343
        let mua := numer / denom
        let mub := (d1343 + d4321 * mua) / d4343
        let pa := p1 + mua • p21
        let pb := p3 + mub • p43
        some (fun i => (pa i + pb i) / 2)

/-- The closed-form value the spec says the intersector returns (spec §4.1
steps 3, 5, 6): the midpoint of `pa = p1 + mua*d_A` and `pb = p3 + mub*d_B`,
with `mua = (d1343*d4321 - d1321*d4343)/denom` and
`mub = (d1343 + d4321*mua)/d4343`, the dot products formed from `p1 - p3`,
`p2 - p1` and `p4 - p3`. -/
def line_line_spec_midpoint (p1 p2 p3 p4 : Pt) : Pt :=
  let p13 := p1 - p3
  let p43 := p4 - p3
  let p21 := p2 - p1
  let d1343 := p13 0 * p43 0 + p13 1 * p43 1 + p13 2 * p43 2
  let d4321 := p43 0 * p21 0 + p43 1 * p21 1 + p43 2 * p21 2
  let d1321 := p13 0 * p21 0 + p13 1 * p21 1 + p13 2 * p21 2
  let d4343 := p43 0 * p43 0 + p43 1 * p43 1 + p43 2 * p43 2
  let d2121 := p21 0 * p21 0 + p21 1 * p21 1 + p21 2 * p21 2
  let denom := d2121 * d4343 - d4321 * d4321
  let numer := d1343 * d4321 - d1321 * d4343
  let mua := numer / denom
  let mub := (d1343 + d4321 * mua) / d4343
  let pa := p1 + mua • p21
  let pb := p3 + mub • p43
  fun i => (pa i + pb i) / 2

/-- A 4x4 real matrix, the representation of a rigid transform. -/
abbrev M4 := Matrix (Fin 4) (Fin 4) ℝ

/-- A 3x3 real matrix, a rotation block. -/
abbrev M3 := Matrix (Fin 3) (Fin 3) ℝ

/-- Embedding of `PoseUtils.helpers.flip_coordinate_system`:
the body is literally `return T[:, axis] * -1`, a length-4 column vector. -/
def flip_coordinate_system (T : M4) (axis : Fin 4 := 2) : Fin 4 → ℝ :=
  fun i => T i axis * -1

/-- What the docstring of `flip_coordinate_system` promises
("Output: A 4x4 transformation matrix"): the matrix `T` with the chosen
axis column negated.  Stated from the docstring, for comparison with the
code's actual return value. -/
def flip_documented (T : M4) (axis : Fin 4) : M4 :=
  fun i j => if j = axis then -(T i j) else T i j

/-- `np.linalg.norm` of a vector: the square root of the sum of squares. -/
noncomputable def npNorm {n : ℕ} (v : Fin n → ℝ) : ℝ :=
  Real.sqrt (∑ j, v j ^ 2)

/-- Embedding of `PoseUtils.metrics.translations_from_trajectory`:
`tr[:3, -1]` of each transform, i.e. the first three rows of the last
column. -/
def translations_from_trajectory (trajectory : List M4) : List (Fin 3 → ℝ) :=
  trajectory.map fun tr => fun i => tr i.castSucc 3

/-- The `tr[:3, :3]` rotation block passed to
`transformations.quaternion_from_matrix`. -/
def rotation_block (tr : M4) : M3 :=
  fun i j => tr i.castSucc j.castSucc

/-- Embedding of `PoseUtils.metrics.quaternions_from_trajectory`.
`quaternion_from_matrix` comes from the external `transformations` package
(not part of this repository), so it is taken as a parameter `qF`; the
embedding only uses that it is a deterministic function of the rotation
block. -/
def quaternions_from_trajectory (qF : M3 → Fin 4 → ℝ) (trajectory : List M4) :
    List (Fin 4 → ℝ) :=
  trajectory.map fun tr => qF (rotation_block tr)

/-- The loop body of `rotation_and_translation_error`: one
`[error_x, theta]` sample, with
`q1 = true_q/||true_q||`, `q2 = predicted_q/||predicted_q||`,
`d = abs(sum(q1*q2))`, `theta = 2*arccos(d)*180/pi` and
`error_x = ||true_x - predicted_x||`. -/
noncomputable def sample_error (true_x predicted_x : Fin 3 → ℝ)
    (true_q predicted_q : Fin 4 → ℝ) : ℝ × ℝ :=
  let q1 := fun j => true_q j / npNorm true_q
  let q2 := fun j => predicted_q j / npNorm predicted_q
  let d := |∑ j, q1 j * q2 j|
  let theta := 2 * Real.arccos d * 180 / Real.pi
  let error_x := npNorm (fun i => true_x i - predicted_x i)
  (error_x, theta)

/-- Embedding of `PoseUtils.metrics.rotation_and_translation_error`.
The Python loop runs `for j in range(translations_true.shape[0])` and indexes
`translations_pred[j]` / `rotations_pred[j]`: when the predicted trajectory
is shorter this raises `IndexError` (modelled `none`); otherwise the loop
pairs index `j` of both trajectories for `j` below the true trajectory's
length, which `List.zipWith` over the two (equally truncated) lists
computes. -/
noncomputable def rotation_and_translation_error (qF : M3 → Fin 4 → ℝ)
    (true_trajectory pred_trajectory : List M4) : Option (List (ℝ × ℝ)) :=
  let translations_pred := translations_from_trajectory pred_trajectory
  let translations_true := translations_from_trajectory true_trajectory
  let rotations_true := quaternions_from_trajectory qF true_trajectory
  let rotations_pred := quaternions_from_trajectory qF pred_trajectory
  if translations_pred.length < translations_true.length then none
  else
    some (List.zipWith (fun tj pj => sample_error tj.1 pj.1 tj.2 pj.2)
      (translations_true.zip rotations_true)
      (translations_pred.zip rotations_pred))

/-- Sum of squares of a 3-vector: `np.sum(Si ** 2, axis=1)` for one row. -/
def Q3 (v : Fin 3 → ℝ) : ℝ := ∑ j, v j ^ 2

/-- Dot product of two 3-vectors. -/
def dotp (v w : Fin 3 → ℝ) : ℝ := ∑ j, v j * w j

/-- `Si = PB - PA`: the direction vector of ray `i`. -/
def lineDir {N : ℕ} (PA PB : Fin N → Fin 3 → ℝ) (i : Fin N) : Fin 3 → ℝ :=
  PB i - PA i

/-- `ni = Si / Si_Norm[:, np.newaxis]`: row `i` of the normalized
directions. -/
noncomputable def unitDir {N : ℕ} (PA PB : Fin N → Fin 3 → ℝ) (i : Fin N) :
    Fin 3 → ℝ :=
  fun j => lineDir PA PB i j / Real.sqrt (Q3 (lineDir PA PB i))

/-- The normal-equations matrix `S` of
`PoseUtils.helpers.intersection_point_of_3d_lines`:
`S = [[SXX, SXY, SXZ], [SXY, SYY, SYZ], [SXZ, SYZ, SZZ]]` with
`SXX = sum(nx**2 - 1)`, `SXY = sum(nx*ny)`, and so on. -/
noncomputable def Smat {N : ℕ} (PA PB : Fin N → Fin 3 → ℝ) :
    Matrix (Fin 3) (Fin 3) ℝ :=
  !![∑ i, (unitDir PA PB i 0 ^ 2 - 1),
     ∑ i, unitDir PA PB i 0 * unitDir PA PB i 1,
     ∑ i, unitDir PA PB i 0 * unitDir PA PB i 2;
     ∑ i, unitDir PA PB i 0 * unitDir PA PB i 1,
     ∑ i, (unitDir PA PB i 1 ^ 2 - 1),
     ∑ i, unitDir PA PB i 1 * unitDir PA PB i 2;
     ∑ i, unitDir PA PB i 0 * unitDir PA PB i 2,
     ∑ i, unitDir PA PB i 1 * unitDir PA PB i 2,
     ∑ i, (unitDir PA PB i 2 ^ 2 - 1)]

/-- The right-hand side `C = [CX, CY, CZ]` of the same routine:
`CX = sum(PA[:,0]*(nx**2-1) + PA[:,1]*(nx*ny) + PA[:,2]*(nx*nz))`, etc. -/
noncomputable def Cvec {N : ℕ} (PA PB : Fin N → Fin 3 → ℝ) : Fin 3 → ℝ :=
  ![∑ i, (PA i 0 * (unitDir PA PB i 0 ^ 2 - 1) +
          PA i 1 * (unitDir PA PB i 0 * unitDir PA PB i 1) +
          PA i 2 * (unitDir PA PB i 0 * unitDir PA PB i 2)),
    ∑ i, (PA i 0 * (unitDir PA PB i 0 * unitDir PA PB i 1) +
          PA i 1 * (unitDir PA PB i 1 ^ 2 - 1) +
          PA i 2 * (unitDir PA PB i 1 * unitDir PA PB i 2)),
    ∑ i, (PA i 0 * (unitDir PA PB i 0 * unitDir PA PB i 2) +
          PA i 1 * (unitDir PA PB i 1 * unitDir PA PB i 2) +
          PA i 2 * (unitDir PA PB i 2 ^ 2 - 1))]

/-- Embedding of `PoseUtils.helpers.intersection_point_of_3d_lines`:
`P_intersect = solve(S, C)`.  `np.linalg.solve` raises on a singular
matrix; every claim about this function assumes `S` invertible, under which
the inverse-based value below is the unique solution of `S x = C`. -/
noncomputable def intersection_point_of_3d_lines {N : ℕ}
    (PA PB : Fin N → Fin 3 → ℝ) : Fin 3 → ℝ :=
  (Smat PA PB)⁻¹.mulVec (Cvec PA PB)

/-- The set of squared distances from `y` to points of the line through `a`
with direction `d`. -/
def sqDistSet (y a d : Fin 3 → ℝ) : Set ℝ :=
  {r : ℝ | ∃ t : ℝ, r = Q3 (y - (a + t • d))}

/-- The squared perpendicular distance from `y` to the infinite line through
`a` with direction `d` (the infimum of squared distances to its points). -/
noncomputable def lineSqDist (y a d : Fin 3 → ℝ) : ℝ :=
  sInf (sqDistSet y a d)

/-- The least-squares objective of the multi-line intersector: the sum over
all rays of the squared perpendicular distance from `y` to the ray's
infinite line. -/
noncomputable def totalSqDist {N : ℕ} (PA PB : Fin N → Fin 3 → ℝ)
    (y : Fin 3 → ℝ) : ℝ :=
  ∑ i, lineSqDist y (PA i) (lineDir PA PB i)

/-- The component of `v` orthogonal to `d` (projection remainder); the
matrix `-S` acts on a vector as the sum of these operators over the rays. -/
noncomputable def Mop (d v : Fin 3 → ℝ) : Fin 3 → ℝ :=
  v - (dotp v d / Q3 d) • d

/-- Concrete ray starts used as a witness input: three rays from the
origin. -/
def wPA : Fin 3 → Fin 3 → ℝ := fun _ _ => 0

/-- Concrete ray ends used as a witness input: the three coordinate axes. -/
def wPB : Fin 3 → Fin 3 → ℝ := ![![1, 0, 0], ![0, 1, 0], ![0, 0, 1]]

/-- A concrete stand-in for `transformations.quaternion_from_matrix` used in
witnesses: the identity quaternion for every rotation block. -/
def wQF : M3 → Fin 4 → ℝ := fun _ => ![1, 0, 0, 0]

/-- Claim C6: for the two lines crossing at the origin given by
`p1=(-1,0,0), p2=(1,0,0)` and `p3=(0,-1,0), p4=(0,1,0)`,
`line_line_intersection` returns `(0,0,0)` exactly. -/
theorem c6_origin_crossing :
    line_line_intersection ![-1, 0, 0] ![1, 0, 0] ![0, -1, 0] ![0, 1, 0] =
      some ![0, 0, 0] := by
  unfold line_line_intersection
  norm_num [eps, Fin.forall_fin_succ, Fin.forall_fin_two]
  funext i
  fin_cases i <;> norm_num

/-- Counterexample to claim C2 as stated: on the claim's own example of two
identical non-degenerate lines (`p1=p3=(0,0,0)`, `p2=p4=(1,0,0)`),
`line_line_intersection` raises the degeneracy error (returns `none`)
instead of returning a point on the line. -/
theorem c2_counterexample :
    line_line_intersection ![0, 0, 0] ![1, 0, 0] ![0, 0, 0] ![1, 0, 0] =
      none := by
  unfold line_line_intersection
  norm_num [eps, Fin.forall_fin_succ, Fin.forall_fin_two]

/-- Claim C2 (amended): for any two identical lines (`p1 == p3`,
`p2 == p4`), `line_line_intersection` raises the degenerate-geometry error:
`denom = d2121*d4343 - d4321^2 = 0 < eps`, so identical lines are treated
as parallel/degenerate. -/
theorem c2_identical_lines_raise (p1 p2 : Pt) :
    line_line_intersection p1 p2 p1 p2 = none := by
  simp only [line_line_intersection]
  split_ifs with h1 h2 <;>
    first
      | rfl
      | exact absurd (by rw [sub_self]; norm_num [eps]) h2

/-- Claim C3: `line_line_intersection` raises exactly when every component
of `p4 - p3` is below `eps`, or every component of `p2 - p1` is below
`eps`, or `denom = d2121*d4343 - d4321^2` is below `eps`; in particular the
parallel input `p1=(0,0,0), p2=(1,0,0), p3=(0,1,0), p4=(1,1,0)` raises. -/
theorem c3_raise_iff :
    (∀ p1 p2 p3 p4 : Pt,
      line_line_intersection p1 p2 p3 p4 = none ↔
        (∀ i, (p4 - p3) i < eps) ∨ (∀ i, (p2 - p1) i < eps) ∨
          ((p2 - p1) 0 * (p2 - p1) 0 + (p2 - p1) 1 * (p2 - p1) 1 +
              (p2 - p1) 2 * (p2 - p1) 2) *
            ((p4 - p3) 0 * (p4 - p3) 0 + (p4 - p3) 1 * (p4 - p3) 1 +
              (p4 - p3) 2 * (p4 - p3) 2) -
            ((p4 - p3) 0 * (p2 - p1) 0 + (p4 - p3) 1 * (p2 - p1) 1 +
              (p4 - p3) 2 * (p2 - p1) 2) ^ 2 < eps) ∧
    line_line_intersection ![0, 0, 0] ![1, 0, 0] ![0, 1, 0] ![1, 1, 0] =
      none := by
  constructor
  · intro p1 p2 p3 p4
    simp only [line_line_intersection, pow_two]
    split_ifs with h1 h2 h3
    · exact iff_of_true rfl (Or.inl (by simpa using h1))
    · exact iff_of_true rfl (Or.inr (Or.inl (by simpa using h2)))
    · exact iff_of_true rfl (Or.inr (Or.inr (by simpa using h3)))
    · refine iff_of_false (fun hc => by simp at hc) ?_
      rintro (h | h | h)
      · exact h1 (by simpa using h)
      · exact h2 (by simpa using h)
      · exact h3 (by simpa using h)
  · unfold line_line_intersection
    norm_num [eps, Fin.forall_fin_succ, Fin.forall_fin_two]

/-- Claim C9: the elementwise guard `np.all(direction < eps)` fires on any
direction with every component negative, so the degeneracy error is raised
on inputs that are not geometrically degenerate: the concrete input
`p1=(1,1,1), p2=(0,0,0), p3=(0,0,0), p4=(1,0,0)` has nonzero, non-parallel
directions yet raises. -/
theorem c9_elementwise_guard :
    (∀ p1 p2 p3 p4 : Pt, (∀ i, (p2 - p1) i < eps) →
        line_line_intersection p1 p2 p3 p4 = none) ∧
      (line_line_intersection ![1, 1, 1] ![0, 0, 0] ![0, 0, 0] ![1, 0, 0] =
          none ∧
        (![0, 0, 0] - ![1, 1, 1] : Pt) ≠ 0 ∧
        (![1, 0, 0] - ![0, 0, 0] : Pt) ≠ 0 ∧
        ¬ ∃ c : ℚ,
          (![0, 0, 0] - ![1, 1, 1] : Pt) =
            c • (![1, 0, 0] - ![0, 0, 0] : Pt)) := by
  refine ⟨?_, ?_, ?_, ?_, ?_⟩
  · intro p1 p2 p3 p4 h
    simp only [line_line_intersection]
    split_ifs <;> rfl
  · unfold line_line_intersection
    norm_num [eps, Fin.forall_fin_succ, Fin.forall_fin_two]
  · intro hc
    have h0 := congrFun hc 0
    norm_num at h0
  · intro hc
    have h0 := congrFun hc 0
    norm_num at h0
  · rintro ⟨c, hc⟩
    have ha := congrFun hc 1
    norm_num at ha

/-- Witness for C9: the all-components-negative guard applied at a concrete
input. -/
theorem c9_witness :
    line_line_intersection ![5, 5, 5] ![4, 4, 4] ![0, 0, 0] ![0, 0, 1] =
      none :=
  c9_elementwise_guard.1 _ _ _ _ (by intro i; fin_cases i <;> norm_num [eps])

/-- Claim C4: whenever `line_line_intersection` does not raise, it returns
the midpoint `(pa + pb)/2` built from `mua`, `mub` and the dot products of
`p1 - p3`, `p2 - p1` and `p4 - p3`, exactly as the spec describes. -/
theorem c4_returns_spec_midpoint (p1 p2 p3 p4 : Pt)
    (h : line_line_intersection p1 p2 p3 p4 ≠ none) :
    line_line_intersection p1 p2 p3 p4 =
      some (line_line_spec_midpoint p1 p2 p3 p4) := by
  simp only [line_line_intersection] at h ⊢
  split_ifs at h ⊢ with h1 h2 h3 <;>
    first
      | exact absurd rfl h
      | rfl

/-- Witness for C4: a concrete non-raising input where the returned value
is the spec's midpoint formula. -/
theorem c4_witness :
    line_line_intersection ![0, 0, 1] ![2, 0, 1] ![1, -1, 1] ![1, 3, 1] ≠
        none ∧
      line_line_intersection ![0, 0, 1] ![2, 0, 1] ![1, -1, 1] ![1, 3, 1] =
        some (line_line_spec_midpoint ![0, 0, 1] ![2, 0, 1] ![1, -1, 1]
          ![1, 3, 1]) :=
  ⟨by unfold line_line_intersection
      norm_num [eps, Fin.forall_fin_succ, Fin.forall_fin_two]
      exact Option.some_ne_none _,
   c4_returns_spec_midpoint _ _ _ _
     (by unfold line_line_intersection
         norm_num [eps, Fin.forall_fin_succ, Fin.forall_fin_two]
         exact Option.some_ne_none _)⟩

/-- Claim C10: `flip_coordinate_system` returns the single column
`T[:, axis]` negated — a length-4 vector, which is exactly the `axis`
column of the 4x4 matrix its docstring promises, not that matrix itself;
`T` is not modified (the embedding is a pure function of `T`). -/
theorem c10_flip_returns_negated_column :
    ∀ (T : M4) (axis : Fin 4),
      flip_coordinate_system T axis = (fun i => -(T i axis)) ∧
        flip_coordinate_system T axis =
          (fun i => flip_documented T axis i axis) := by
  intro T axis
  constructor <;> funext i <;>
    simp [flip_coordinate_system, flip_documented, mul_neg_one]

theorem sumSq_pos {n : ℕ} {v : Fin n → ℝ} (h : v ≠ 0) :
    0 < ∑ j, v j ^ 2 := by
  obtain ⟨j, hj⟩ : ∃ j, v j ≠ 0 := by
    by_contra hc
    push_neg at hc
    exact h (funext hc)
  exact Finset.sum_pos' (fun i _ => sq_nonneg _)
    ⟨j, Finset.mem_univ j, by positivity⟩

theorem sample_error_self (tx : Fin 3 → ℝ) {tq : Fin 4 → ℝ} (h : tq ≠ 0) :
    sample_error tx tx tq tq = (0, 0) := by
  have hs : 0 < ∑ j, tq j ^ 2 := sumSq_pos h
  have hd : ∑ j, (tq j / Real.sqrt (∑ k, tq k ^ 2)) *
      (tq j / Real.sqrt (∑ k, tq k ^ 2)) = 1 := by
    have hterm : ∀ j, (tq j / Real.sqrt (∑ k, tq k ^ 2)) *
        (tq j / Real.sqrt (∑ k, tq k ^ 2)) = tq j ^ 2 / ∑ k, tq k ^ 2 := by
      intro j
      rw [div_mul_div_comm, Real.mul_self_sqrt hs.le, ← pow_two]
    rw [Finset.sum_congr rfl fun j _ => hterm j, ← Finset.sum_div,
      div_self hs.ne']
  refine Prod.ext ?_ ?_
  · simp [sample_error, npNorm]
  · simp only [sample_error, npNorm]
    rw [hd]
    simp

theorem sample_error_comm (tx px : Fin 3 → ℝ) (tq pq : Fin 4 → ℝ) :
    sample_error tx px tq pq = sample_error px tx pq tq := by
  refine Prod.ext ?_ ?_
  · simp only [sample_error, npNorm]
    congr 1
    exact Finset.sum_congr rfl fun i _ => by ring
  · simp only [sample_error, npNorm]
    have hsum :
        (∑ x : Fin 4, tq x / Real.sqrt (∑ j, tq j ^ 2) *
          (pq x / Real.sqrt (∑ j, pq j ^ 2))) =
        ∑ x : Fin 4, pq x / Real.sqrt (∑ j, pq j ^ 2) *
          (tq x / Real.sqrt (∑ j, tq j ^ 2)) :=
      Finset.sum_congr rfl fun j _ => by ring
    rw [hsum]

/-- Claim C7: the pose error metric applied to two identical trajectories
returns translation error 0 and rotation error 0 at every index (given
that the external quaternion extraction never returns the zero quaternion,
as `transformations.quaternion_from_matrix` does not). -/
theorem c7_zero_error (qF : M3 → Fin 4 → ℝ) (A : List M4)
    (h : ∀ M ∈ A, qF (rotation_block M) ≠ 0) :
    rotation_and_translation_error qF A A =
      some (List.replicate A.length (0, 0)) := by
  simp only [rotation_and_translation_error]
  rw [if_neg (lt_irrefl _)]
  congr 1
  rw [List.zipWith_same, translations_from_trajectory,
    quaternions_from_trajectory, List.zip_map', List.map_map]
  refine List.eq_replicate_iff.mpr ⟨by simp, ?_⟩
  intro b hb
  obtain ⟨M, hM, rfl⟩ := List.mem_map.mp hb
  exact sample_error_self _ (h M hM)

/-- Witness for C7: a one-element trajectory of the identity transform,
with the identity quaternion as the extracted rotation. -/
theorem c7_witness :
    (∀ M ∈ [(1 : M4)], wQF (rotation_block M) ≠ 0) ∧
      rotation_and_translation_error wQF [(1 : M4)] [(1 : M4)] =
        some (List.replicate [(1 : M4)].length (0, 0)) := by
  have h : ∀ M ∈ [(1 : M4)], wQF (rotation_block M) ≠ 0 := by
    intro M _ hc
    have h0 := congrFun hc 0
    norm_num [wQF] at h0
  exact ⟨h, c7_zero_error wQF [(1 : M4)] h⟩

/-- Claim C8: for equal-length trajectories, swapping the argument order of
the pose error metric leaves every per-index translation and rotation error
unchanged. -/
theorem c8_symmetry (qF : M3 → Fin 4 → ℝ) (A B : List M4)
    (h : A.length = B.length) :
    rotation_and_translation_error qF A B =
      rotation_and_translation_error qF B A := by
  have hAB : ¬ ((translations_from_trajectory B).length <
      (translations_from_trajectory A).length) := by
    simp [translations_from_trajectory, h]
  have hBA : ¬ ((translations_from_trajectory A).length <
      (translations_from_trajectory B).length) := by
    simp [translations_from_trajectory, h]
  simp only [rotation_and_translation_error]
  rw [if_neg hAB, if_neg hBA]
  have hz := List.zipWith_comm_of_comm
    (fun (tj pj : (Fin 3 → ℝ) × (Fin 4 → ℝ)) =>
      sample_error tj.1 pj.1 tj.2 pj.2)
    (fun x y => sample_error_comm x.1 y.1 x.2 y.2)
    ((translations_from_trajectory A).zip (quaternions_from_trajectory qF A))
    ((translations_from_trajectory B).zip (quaternions_from_trajectory qF B))
  rw [hz]

/-- Witness for C8: two concrete one-element trajectories. -/
theorem c8_witness :
    ([(1 : M4)].length = [(0 : M4)].length) ∧
      rotation_and_translation_error wQF [(1 : M4)] [(0 : M4)] =
        rotation_and_translation_error wQF [(0 : M4)] [(1 : M4)] :=
  ⟨rfl, c8_symmetry wQF [(1 : M4)] [(0 : M4)] rfl⟩

/-- Counterexample to claim C1 as stated: a true trajectory of length 3 and
a predicted trajectory of length 4 do NOT raise a length-mismatch error —
the metric returns normally with 3 error pairs, silently truncating the
predicted trajectory. -/
theorem c1_counterexample :
    Option.map List.length
      (rotation_and_translation_error wQF
        (List.replicate 3 (1 : M4)) (List.replicate 4 (1 : M4))) =
      some 3 := by
  simp [rotation_and_translation_error, translations_from_trajectory,
    quaternions_from_trajectory, List.length_zipWith, List.length_zip]

/-- Claim C1 (amended): `rotation_and_translation_error` performs no length
check.  It iterates over the true trajectory's indices: when the predicted
trajectory is at least as long it returns normally with exactly
`true.length` error pairs (silently truncating a longer prediction), and it
fails (an index error, not a length-mismatch error) exactly when the true
trajectory is strictly longer than the predicted one. -/
theorem c1_no_length_check (qF : M3 → Fin 4 → ℝ) (t p : List M4) :
    Option.map List.length (rotation_and_translation_error qF t p) =
      if p.length < t.length then none else some t.length := by
  simp only [rotation_and_translation_error, translations_from_trajectory,
    quaternions_from_trajectory, List.length_map]
  split_ifs with h
  · rfl
  · simp [List.length_zipWith, List.length_zip]
    omega

theorem Q3_nonneg (v : Fin 3 → ℝ) : 0 ≤ Q3 v :=
  Finset.sum_nonneg fun _ _ => sq_nonneg _

theorem Q3_pos {d : Fin 3 → ℝ} (h : d ≠ 0) : 0 < Q3 d := sumSq_pos h

theorem Q3_eq_zero {v : Fin 3 → ℝ} (h : Q3 v = 0) : v = 0 := by
  by_contra hv
  exact absurd h (ne_of_gt (Q3_pos hv))

theorem Mop_sub (d u w : Fin 3 → ℝ) : Mop d (u - w) = Mop d u - Mop d w := by
  funext j
  simp only [Mop, dotp, Fin.sum_univ_three, Pi.sub_apply, Pi.smul_apply,
    smul_eq_mul]
  ring

theorem dotp_sum {N : ℕ} (h : Fin 3 → ℝ) (w : Fin N → Fin 3 → ℝ) :
    dotp h (∑ i, w i) = ∑ i, dotp h (w i) := by
  simp only [dotp, Finset.sum_apply, Finset.mul_sum]
  exact Finset.sum_comm

theorem Mop_expand {d : Fin 3 → ℝ} (hd : Q3 d ≠ 0) (h w : Fin 3 → ℝ) :
    Q3 (Mop d (h + w)) =
      Q3 (Mop d h) + 2 * dotp h (Mop d w) + Q3 (Mop d w) := by
  have hq : d 0 ^ 2 + d 1 ^ 2 + d 2 ^ 2 ≠ 0 := by
    simpa [Q3, Fin.sum_univ_three] using hd
  simp only [Q3, Mop, dotp, Fin.sum_univ_three, Pi.sub_apply, Pi.add_apply,
    Pi.smul_apply, smul_eq_mul]
  field_simp
  ring

theorem lineSqDist_eq {d : Fin 3 → ℝ} (hd : d ≠ 0) (y a : Fin 3 → ℝ) :
    lineSqDist y a d = Q3 (Mop d (y - a)) := by
  have hQ : 0 < Q3 d := Q3_pos hd
  have hshift : ∀ t : ℝ, y - (a + t • d) = (y - a) - t • d := by
    intro t
    funext j
    simp only [Pi.sub_apply, Pi.add_apply, Pi.smul_apply, smul_eq_mul]
    ring
  have hleast : IsLeast (sqDistSet y a d) (Q3 (Mop d (y - a))) := by
    constructor
    · exact ⟨dotp (y - a) d / Q3 d, by rw [hshift]; rfl⟩
    · rintro r ⟨t, rfl⟩
      rw [hshift]
      set v := y - a with hv
      have hq : d 0 ^ 2 + d 1 ^ 2 + d 2 ^ 2 ≠ 0 := by
        simpa [Q3, Fin.sum_univ_three] using hQ.ne'
      have key : Q3 (v - t • d) - Q3 (Mop d v) =
          (t * Q3 d - dotp v d) ^ 2 / Q3 d := by
        simp only [Q3, Mop, dotp, Fin.sum_univ_three, Pi.sub_apply,
          Pi.smul_apply, smul_eq_mul]
        field_simp
        ring
      have hnn : 0 ≤ (t * Q3 d - dotp v d) ^ 2 / Q3 d :=
        div_nonneg (sq_nonneg _) hQ.le
      linarith
  exact hleast.csInf_eq

theorem unitDir_mul {N : ℕ} (PA PB : Fin N → Fin 3 → ℝ) (i : Fin N)
    (a b : Fin 3) :
    unitDir PA PB i a * unitDir PA PB i b =
      lineDir PA PB i a * lineDir PA PB i b / Q3 (lineDir PA PB i) := by
  simp only [unitDir]
  rw [div_mul_div_comm, Real.mul_self_sqrt (Q3_nonneg _)]

theorem Smat_mulVec {N : ℕ} (PA PB : Fin N → Fin 3 → ℝ)
    (h : ∀ i, lineDir PA PB i ≠ 0) (v : Fin 3 → ℝ) :
    (Smat PA PB).mulVec v = -(∑ i, Mop (lineDir PA PB i) v) := by
  have hq : ∀ i, Q3 (lineDir PA PB i) ≠ 0 := fun i => (Q3_pos (h i)).ne'
  funext j
  fin_cases j
  all_goals
    first
      | show (Smat PA PB).mulVec v 0 = (-(∑ i, Mop (lineDir PA PB i) v)) 0
      | show (Smat PA PB).mulVec v 1 = (-(∑ i, Mop (lineDir PA PB i) v)) 1
      | show (Smat PA PB).mulVec v 2 = (-(∑ i, Mop (lineDir PA PB i) v)) 2
  all_goals
    simp only [Smat, Matrix.mulVec, Matrix.dotProduct, Fin.sum_univ_three,
      Matrix.of_apply, Matrix.cons_val', Matrix.cons_val_zero,
      Matrix.cons_val_one, Matrix.head_cons, Matrix.empty_val',
      Matrix.cons_val_fin_one, Matrix.head_fin_const, Matrix.cons_val_two,
      Matrix.tail_cons, Pi.neg_apply, Finset.sum_apply, Mop, dotp,
      Pi.sub_apply, Pi.smul_apply, smul_eq_mul, pow_two, unitDir_mul]
  all_goals
    rw [Finset.sum_mul, Finset.sum_mul, Finset.sum_mul,
      ← Finset.sum_add_distrib, ← Finset.sum_add_distrib,
      ← Finset.sum_neg_distrib]
    refine Finset.sum_congr rfl fun i _ => ?_
    field_simp
    ring

theorem Cvec_eq {N : ℕ} (PA PB : Fin N → Fin 3 → ℝ)
    (h : ∀ i, lineDir PA PB i ≠ 0) :
    Cvec PA PB = -(∑ i, Mop (lineDir PA PB i) (PA i)) := by
  have hq : ∀ i, Q3 (lineDir PA PB i) ≠ 0 := fun i => (Q3_pos (h i)).ne'
  funext j
  fin_cases j
  all_goals
    first
      | show Cvec PA PB 0 = (-(∑ i, Mop (lineDir PA PB i) (PA i))) 0
      | show Cvec PA PB 1 = (-(∑ i, Mop (lineDir PA PB i) (PA i))) 1
      | show Cvec PA PB 2 = (-(∑ i, Mop (lineDir PA PB i) (PA i))) 2
  all_goals
    simp only [Cvec, Fin.sum_univ_three, Matrix.cons_val_zero,
      Matrix.cons_val_one, Matrix.head_cons, Matrix.cons_val_two,
      Matrix.tail_cons, Pi.neg_apply, Finset.sum_apply, Mop, dotp,
      Pi.sub_apply, Pi.smul_apply, smul_eq_mul, pow_two, unitDir_mul]
  all_goals
    rw [← Finset.sum_neg_distrib]
    refine Finset.sum_congr rfl fun i _ => ?_
    field_simp
    ring

/-- Claim C5: for rays of nonzero length whose normal-equations matrix `S`
is invertible, `intersection_point_of_3d_lines` returns the unique point
minimizing the sum over all rays of the squared perpendicular distance to
the ray's infinite line. -/
theorem c5_least_squares {N : ℕ} (PA PB : Fin N → Fin 3 → ℝ)
    (h1 : ∀ i, lineDir PA PB i ≠ 0) (h2 : IsUnit (Smat PA PB).det) :
    (∀ y, totalSqDist PA PB (intersection_point_of_3d_lines PA PB) ≤
        totalSqDist PA PB y) ∧
      ∀ y, totalSqDist PA PB y =
          totalSqDist PA PB (intersection_point_of_3d_lines PA PB) →
        y = intersection_point_of_3d_lines PA PB := by
  set x := intersection_point_of_3d_lines PA PB with hx
  have hQd : ∀ i, Q3 (lineDir PA PB i) ≠ 0 := fun i => (Q3_pos (h1 i)).ne'
  have hnormal : (Smat PA PB).mulVec x = Cvec PA PB := by
    rw [hx, intersection_point_of_3d_lines, Matrix.mulVec_mulVec,
      Matrix.mul_nonsing_inv _ h2, Matrix.one_mulVec]
  have hsum0 : (∑ i, Mop (lineDir PA PB i) (x - PA i)) = 0 := by
    have hSx := Smat_mulVec PA PB h1 x
    rw [hnormal, Cvec_eq PA PB h1] at hSx
    have hEq : (∑ i, Mop (lineDir PA PB i) (PA i)) =
        ∑ i, Mop (lineDir PA PB i) x := neg_injective hSx
    calc (∑ i, Mop (lineDir PA PB i) (x - PA i))
        = ∑ i, (Mop (lineDir PA PB i) x - Mop (lineDir PA PB i) (PA i)) :=
          Finset.sum_congr rfl fun i _ => Mop_sub _ _ _
      _ = (∑ i, Mop (lineDir PA PB i) x) -
            ∑ i, Mop (lineDir PA PB i) (PA i) := Finset.sum_sub_distrib
      _ = 0 := by rw [hEq, sub_self]
  have hdecomp : ∀ y, totalSqDist PA PB y =
      totalSqDist PA PB x + ∑ i, Q3 (Mop (lineDir PA PB i) (y - x)) := by
    intro y
    have hsplit : ∀ i : Fin N, y - PA i = (y - x) + (x - PA i) := by
      intro i
      funext j
      simp only [Pi.sub_apply, Pi.add_apply]
      ring
    calc totalSqDist PA PB y
        = ∑ i, Q3 (Mop (lineDir PA PB i) ((y - x) + (x - PA i))) := by
          refine Finset.sum_congr rfl fun i _ => ?_
          rw [lineSqDist_eq (h1 i) y (PA i), hsplit i]
      _ = ∑ i, (Q3 (Mop (lineDir PA PB i) (y - x)) +
            2 * dotp (y - x) (Mop (lineDir PA PB i) (x - PA i)) +
            Q3 (Mop (lineDir PA PB i) (x - PA i))) :=
          Finset.sum_congr rfl fun i _ => Mop_expand (hQd i) _ _
      _ = (∑ i, Q3 (Mop (lineDir PA PB i) (y - x))) +
            2 * dotp (y - x) (∑ i, Mop (lineDir PA PB i) (x - PA i)) +
            ∑ i, Q3 (Mop (lineDir PA PB i) (x - PA i)) := by
          rw [Finset.sum_add_distrib, Finset.sum_add_distrib, dotp_sum,
            Finset.mul_sum]
      _ = totalSqDist PA PB x +
            ∑ i, Q3 (Mop (lineDir PA PB i) (y - x)) := by
          rw [hsum0]
          have hz : dotp (y - x) (0 : Fin 3 → ℝ) = 0 := by
            simp [dotp]
          rw [hz, mul_zero, add_zero]
          have hTx : totalSqDist PA PB x =
              ∑ i, Q3 (Mop (lineDir PA PB i) (x - PA i)) :=
            Finset.sum_congr rfl fun i _ => lineSqDist_eq (h1 i) x (PA i)
          rw [hTx]
          ring
  constructor
  · intro y
    have hnn : 0 ≤ ∑ i, Q3 (Mop (lineDir PA PB i) (y - x)) :=
      Finset.sum_nonneg fun i _ => Q3_nonneg _
    have := hdecomp y
    linarith
  · intro y hy
    rw [hdecomp y] at hy
    have hzero : ∑ i, Q3 (Mop (lineDir PA PB i) (y - x)) = 0 := by linarith
    have heach := (Finset.sum_eq_zero_iff_of_nonneg
      (fun i _ => Q3_nonneg (Mop (lineDir PA PB i) (y - x)))).mp hzero
    have hMopz : ∀ i, Mop (lineDir PA PB i) (y - x) = 0 := fun i =>
      Q3_eq_zero (heach i (Finset.mem_univ i))
    have hSv : (Smat PA PB).mulVec (y - x) = 0 := by
      rw [Smat_mulVec PA PB h1 (y - x)]
      simp [hMopz]
    have hyx : y - x = 0 := by
      have h3 : ((Smat PA PB)⁻¹ * Smat PA PB).mulVec (y - x) =
          (Smat PA PB)⁻¹.mulVec 0 := by
        rw [← Matrix.mulVec_mulVec, hSv]
      rwa [Matrix.nonsing_inv_mul _ h2, Matrix.one_mulVec,
        Matrix.mulVec_zero] at h3
    exact sub_eq_zero.mp hyx

theorem wit_dir_ne : ∀ i, lineDir wPA wPB i ≠ 0 := by
  intro i
  fin_cases i
  · intro hc
    have h0 := congrFun hc 0
    norm_num [lineDir, wPA, wPB] at h0
  · intro hc
    have h0 := congrFun hc 1
    norm_num [lineDir, wPA, wPB] at h0
  · intro hc
    have h0 := congrFun hc 2
    norm_num [lineDir, wPA, wPB] at h0

theorem wit_unitDir : ∀ i j, unitDir wPA wPB i j = wPB i j := by
  intro i j
  fin_cases i <;> fin_cases j <;>
    norm_num [unitDir, lineDir, wPA, wPB, Q3, Fin.sum_univ_three,
      Real.sqrt_one]

theorem wit_det : (Smat wPA wPB).det = -8 := by
  rw [Matrix.det_fin_three]
  simp only [Smat, Matrix.of_apply, Matrix.cons_val', Matrix.cons_val_zero,
    Matrix.cons_val_one, Matrix.head_cons, Matrix.cons_val_two,
    Matrix.tail_cons, Matrix.empty_val', Matrix.cons_val_fin_one,
    Matrix.head_fin_const, Fin.sum_univ_three, wit_unitDir]
  norm_num [wPB, Matrix.vecHead, Matrix.vecTail]

/-- Witness for C5: three coordinate-axis rays from the origin satisfy both
hypotheses, and the returned point minimizes the objective. -/
theorem c5_witness :
    (∀ i, lineDir wPA wPB i ≠ 0) ∧ IsUnit (Smat wPA wPB).det ∧
      ∀ y, totalSqDist wPA wPB (intersection_point_of_3d_lines wPA wPB) ≤
        totalSqDist wPA wPB y := by
  have h2 : IsUnit (Smat wPA wPB).det := by
    rw [wit_det]
    exact isUnit_iff_ne_zero.mpr (by norm_num)
  exact ⟨wit_dir_ne, h2, (c5_least_squares wPA wPB wit_dir_ne h2).1⟩

end PoseUtils
